import Mathlib

/-!
Verification of the core pipeline of `build_toefl_vocab.py`: source-loader
merge rules, tier construction (`build_layers`), deterministic ordering
(`sort_words_by_rank`), entry assembly (`make_entries`), final list
assembly (as in `main`), configuration validation, and the stats ratio.

Words are strings; dictionaries are modelled as association lists keyed by
the word (Python dicts have unique keys; lookups take the first match);
Python sets are modelled as `Finset String`. Frequency ranks are integers
(`Int`, as Python ints), thresholds likewise.
-/

namespace BuildToeflVocab

/-! ### Data model and program definitions -/

/-- A record of the headword (kajweb) dictionary: Chinese gloss and
free-text part of speech.  Mirrors the `KajWord` dataclass. -/
structure KajWord where
  meaning : String
  pos : String
deriving DecidableEq, Repr

/-- A record of the frequency (ECDICT) dictionary.  Mirrors the
`ECDictWord` dataclass: `tags` is a Python set of lowercase tag tokens,
`coca_rank` is a positive rank or absent. -/
structure ECDictWord where
  phonetic : String
  pos : String
  coca_rank : Option Int
  tags : Finset String
  meaning : String
deriving DecidableEq

/-- Word-keyed headword mapping (`kaj_map`). -/
abbrev KajMap := List (String × KajWord)

/-- Word-keyed frequency mapping (`ecdict_map`). -/
abbrev ECDictMap := List (String × ECDictWord)

/-- Word-keyed subject-tag mapping (`xiaolai_tags`); the value list is the
set of subject labels for the word. -/
abbrev XiaolaiTags := List (String × List String)

/-- The `merge_kaj_word` rule: keep the meaning that is at least as long
(the old one on ties), keep the first non-empty pos (`old.pos or new.pos`). -/
def merge_kaj_word (old new : KajWord) : KajWord :=
  { meaning := if new.meaning.length ≤ old.meaning.length then old.meaning else new.meaning
    pos := if old.pos = "" then new.pos else old.pos }

/-- The intra-source merge rule of `load_ecdict` (lines 395-404): first
non-empty wins for phonetic/pos/meaning, first present rank wins, tags are
unioned. -/
def merge_ecdict_word (old new : ECDictWord) : ECDictWord :=
  { phonetic := if old.phonetic = "" then new.phonetic else old.phonetic
    pos := if old.pos = "" then new.pos else old.pos
    coca_rank := match old.coca_rank with
      | some r => some r
      | none => new.coca_rank
    tags := old.tags ∪ new.tags
    meaning := if old.meaning = "" then new.meaning else old.meaning }

/-- The `rank_of` helper: the COCA rank of `w` in the frequency mapping,
absent when the word is missing or has no rank. -/
def rank_of (w : String) (ecdict : ECDictMap) : Option Int :=
  match List.lookup w ecdict with
  | some info => info.coca_rank
  | none => none

/-- Test used for `layer_a`: the word has a known rank that is `≤ m`. -/
def rank_le (ecdict : ECDictMap) (m : Int) (w : String) : Bool :=
  match rank_of w ecdict with
  | some r => decide (r ≤ m)
  | none => false

/-- Test used for `layer_c`: the word has a known rank in `(cmax, fmax]`. -/
def rank_between (ecdict : ECDictMap) (cmax fmax : Int) (w : String) : Bool :=
  match rank_of w ecdict with
  | some r => decide (cmax < r ∧ r ≤ fmax)
  | none => false

/-- The seven sets returned by `build_layers` (the Python dict of sets). -/
structure Layers where
  layer_a : Finset String
  layer_b : Finset String
  core : Finset String
  layer_c : Finset String
  layer_d : Finset String
  layer_e : Finset String
  full : Finset String
deriving DecidableEq

/-- The candidate vocabulary universe: the keys of the headword mapping. -/
def kajKeys (kaj : KajMap) : Finset String := (kaj.map Prod.fst).toFinset

/-- The keys of the subject-tag mapping. -/
def xiaolaiKeys (xt : XiaolaiTags) : Finset String := (xt.map Prod.fst).toFinset

/-- The `build_layers` tier construction, translated step by step from the
source (lines 524-571). -/
def build_layers (kaj : KajMap) (ecdict : ECDictMap) (xt : XiaolaiTags)
    (awl_words : Finset String) (core_coca_max full_coca_max : Int) : Layers :=
  let kaj_words := kajKeys kaj
  let layer_a := kaj_words.filter (fun w => rank_le ecdict core_coca_max w = true)
  let layer_b := kaj_words ∩ awl_words
  let core := layer_a ∪ layer_b
  let layer_c := kaj_words.filter
    (fun w => rank_between ecdict core_coca_max full_coca_max w = true ∧ w ∉ core)
  let layer_d := (xiaolaiKeys xt \ core) \ layer_c
  let occupied := core ∪ layer_c ∪ layer_d
  let layer_e := ((ecdict.filter
    (fun p => decide (p.1 ∉ occupied) && decide ("toefl" ∈ p.2.tags))).map Prod.fst).toFinset
  let full := core ∪ layer_c ∪ layer_d ∪ layer_e
  { layer_a := layer_a, layer_b := layer_b, core := core, layer_c := layer_c
    layer_d := layer_d, layer_e := layer_e, full := full }

/-- Outcome of the run after the configuration check in `main`: either a
fatal configuration error (a raised `ValueError`) or the value produced by
the rest of the pipeline. -/
inductive RunOutcome (α : Type) where
  | configError : String → RunOutcome α
  | proceeded : α → RunOutcome α
deriving DecidableEq

/-- The configuration-validation prefix of `main` (lines 779-782): the
thresholds are checked before anything else; only when both checks pass is
the loading stage (here an arbitrary `load_sources` continuation standing
for `assert_sources_exist` and the four loaders) invoked. -/
def main_validate_then_load {α : Type} (core_coca_max full_coca_max : Int)
    (load_sources : Unit → α) : RunOutcome α :=
  if core_coca_max ≤ 0 ∨ full_coca_max ≤ 0 then
    RunOutcome.configError "COCA 阈值必须为正整数"
  else if full_coca_max < core_coca_max then
    RunOutcome.configError "full-coca-max 必须 >= core-coca-max"
  else
    RunOutcome.proceeded (load_sources ())

/-- The `calc_ratio` helper of the stats reporter: a guarded division that
returns 0.0 for a non-positive denominator.  Rationals model the exact
value of the Python float division. -/
def calc_ratio (numerator denominator : Int) : ℚ :=
  if denominator ≤ 0 then 0 else (numerator : ℚ) / (denominator : ℚ)

/-- Modelled from the source `parse_coca_rank` (lines 330-340): the raw
`frq` cell of a row, abstracted over Python's string/float plumbing —
`absent` is a `None` value, `empty` a value whose stripped string is empty,
`nonNumeric` a string `float()` rejects, and `numeric q` a string parsing
to the numeric value `q` (floats modelled as exact rationals). -/
inductive RawRank where
  | absent : RawRank
  | empty : RawRank
  | nonNumeric : RawRank
  | numeric : ℚ → RawRank

/-- Truncation toward zero, the semantics of Python `int(float(s))`. -/
def truncTowardZero (q : ℚ) : Int :=
  if 0 ≤ q then ⌊q⌋ else ⌈q⌉

/-- The `parse_coca_rank` normalization: absent/empty/non-numeric values
become `none`; a numeric value is truncated toward zero and kept only when
strictly positive. -/
def parse_coca_rank : RawRank → Option Int
  | RawRank.absent => none
  | RawRank.empty => none
  | RawRank.nonNumeric => none
  | RawRank.numeric q =>
      let n := truncTowardZero q
      if 0 < n then some n else none

/-- Lexicographic comparison of character lists by code point — the
semantics of Python string comparison used for the sort tie-breaks. -/
def lexLE : List Char → List Char → Bool
  | [], _ => true
  | _ :: _, [] => false
  | a :: as, b :: bs => if a < b then true else if b < a then false else lexLE as bs

/-- The sort key of `sort_words_by_rank`: `(0, rank, word)` for a known
rank, `(1, 10^9, word)` otherwise, compared lexicographically. -/
def sortKey (ecdict : ECDictMap) (w : String) : Nat × Int × String :=
  match rank_of w ecdict with
  | none => (1, 10 ^ 9, w)
  | some r => (0, r, w)

/-- Lexicographic comparison of the Python key tuples. -/
def keyLE (k1 k2 : Nat × Int × String) : Bool :=
  if k1.1 < k2.1 then true
  else if k2.1 < k1.1 then false
  else if k1.2.1 < k2.2.1 then true
  else if k2.2.1 < k1.2.1 then false
  else lexLE k1.2.2.data k2.2.2.data

/-- Word comparison used by the per-tier sort. -/
def wordLE (ecdict : ECDictMap) (w1 w2 : String) : Bool :=
  keyLE (sortKey ecdict w1) (sortKey ecdict w2)

/-- The sort comparison as a relation. -/
def wordRel (ecdict : ECDictMap) : String → String → Prop :=
  fun a b => wordLE ecdict a b = true

instance (ecdict : ECDictMap) : DecidableRel (wordRel ecdict) :=
  fun a b => instDecidableEqBool (wordLE ecdict a b) true

/-- The per-tier ordering: `sorted(set(words), key=...)`.  Deduplicate,
then sort by the key; the key is injective (it contains the word) and its
order total, so the sorted result is canonical: it depends neither on the
set-iteration order nor on the sorting algorithm, and an insertion sort is
a faithful model of Python's stable sort. -/
def sort_words_by_rank (words : List String) (ecdict : ECDictMap) : List String :=
  (words.dedup).insertionSort (wordRel ecdict)

/-- Lexical order on words, used to model Python's `sorted` on plain
strings and to enumerate a `Finset` of words as a list.  Python iterates
sets in an unspecified order; since `sort_words_by_rank` deduplicates and
sorts with an antisymmetric total comparison, its output does not depend
on the enumeration order, so any fixed enumeration is a faithful model. -/
def lexRel (a b : String) : Prop := lexLE a.data b.data = true

instance : DecidableRel lexRel :=
  fun a b => instDecidableEqBool (lexLE a.data b.data) true

/-- The `clean_text` normalizer: trim and collapse every whitespace run
(including the CR/LF replaced first) to a single space. -/
def clean_text (s : String) : String :=
  " ".intercalate ((s.split Char.isWhitespace).filter (fun t => t ≠ ""))

/-- Python `token.strip(".")`: drop leading and trailing dots. -/
def stripDots (s : String) : String :=
  String.mk (((s.data.dropWhile (fun c => c = '.')).reverse.dropWhile
    (fun c => c = '.')).reverse)

/-- Separator class of `normalize_pos` (`[\s/;,，]`). -/
def isPosSep (c : Char) : Bool :=
  c.isWhitespace || c = '/' || c = ';' || c = ',' || c = '，'

/-- The `normalize_pos` normalizer: first token before a separator,
stripped of dots, suffixed with a dot. -/
def normalize_pos (pos : String) : String :=
  let pos := clean_text pos
  if pos = "" then ""
  else
    let token := stripDots (pos.takeWhile (fun c => !(isPosSep c)))
    if token = "" then "" else token ++ "."

/-- The `choose_meaning` precedence rule: headword meaning if non-empty,
else frequency meaning, else empty. -/
def choose_meaning (w : String) (kaj : KajMap) (ecdict : ECDictMap) : String :=
  match List.lookup w kaj with
  | some k =>
      if k.meaning ≠ "" then k.meaning
      else
        match List.lookup w ecdict with
        | some e => if e.meaning ≠ "" then e.meaning else ""
        | none => ""
  | none =>
      match List.lookup w ecdict with
      | some e => if e.meaning ≠ "" then e.meaning else ""
      | none => ""

/-- The `choose_pos` precedence rule: frequency pos if non-empty, else the
normalized headword pos, else empty. -/
def choose_pos (w : String) (kaj : KajMap) (ecdict : ECDictMap) : String :=
  let kaj_pos :=
    match List.lookup w kaj with
    | some k => if k.pos ≠ "" then normalize_pos k.pos else ""
    | none => ""
  match List.lookup w ecdict with
  | some e => if e.pos ≠ "" then e.pos else kaj_pos
  | none => kaj_pos

/-- First-occurrence deduplication with an accumulated seen set — the
`seen`-set list comprehension of `main` and the final pass of
`build_tags`. -/
def dedupFirstAux (seen : List String) : List String → List String
  | [] => []
  | w :: ws =>
      if w ∈ seen then dedupFirstAux seen ws
      else w :: dedupFirstAux (w :: seen) ws

/-- First-occurrence deduplication of a list of words. -/
def dedupFirst (ws : List String) : List String := dedupFirstAux [] ws

/-- The `build_tags` assembly: AWL markers first, then the word's subject
labels sorted lexically, then CET4/CET6 markers, deduplicated keeping the
first occurrence. -/
def build_tags (w : String) (awl_words : Finset String) (xt : XiaolaiTags)
    (ecdict : ECDictMap) : List String :=
  let tags0 : List String := if w ∈ awl_words then ["AWL", "学术通用"] else []
  let subj := (((List.lookup w xt).getD []).dedup).insertionSort lexRel
  let tags1 := subj.foldl (fun acc t => if t ∈ acc then acc else acc ++ [t]) tags0
  let tags2 := tags1 ++
    (match List.lookup w ecdict with
     | some e => (if "cet4" ∈ e.tags then ["CET4"] else []) ++
         (if "cet6" ∈ e.tags then ["CET6"] else [])
     | none => [])
  dedupFirst tags2

/-- Fuel-based decimal digit extraction (little-endian), the semantics of
Python decimal formatting; the fuel argument only forces termination. -/
def decDigitsAux : Nat → Nat → List Nat
  | 0, _ => []
  | _ + 1, 0 => []
  | fuel + 1, n + 1 => ((n + 1) % 10) :: decDigitsAux fuel ((n + 1) / 10)

/-- Little-endian decimal digits of `n`. -/
def decDigits (n : Nat) : List Nat := decDigitsAux n n

/-- Number of characters of Python `str(n)` for a natural `n`. -/
def decLen (n : Nat) : Nat := if n = 0 then 1 else (decDigits n).length

/-- Python `str(n)` for a natural `n`. -/
def decStr (n : Nat) : String :=
  if n = 0 then "0"
  else String.mk ((decDigits n).reverse.map (fun d => Char.ofNat (48 + d)))

/-- Python `f"{n:0{width}d}"`: left-pad the decimal digits with zeros. -/
def padLeft (width : Nat) (s : String) : String :=
  String.mk (List.replicate (width - s.length) '0') ++ s

/-- An output `id` string: `toefl_` plus the zero-padded index. -/
def entryId (width idx : Nat) : String := "toefl_" ++ padLeft width (decStr idx)

/-- A final output entry.  The Python dict has a ninth key `example`
(always empty, reserved); `example` is a Lean keyword, hence
`example_text`. -/
structure FinalEntry where
  id : String
  word : String
  phonetic : String
  meaning : String
  pos : String
  coca_rank : Option Int
  tier : String
  tags : List String
  example_text : String
deriving DecidableEq

/-- The `make_entries` assembler (lines 632-659): id width is the digit
count of the list length with a minimum of 4; indices start at 1. -/
def make_entries (words_ordered : List String) (tier_by_word : String → String)
    (kaj : KajMap) (ecdict : ECDictMap) (awl_words : Finset String)
    (xt : XiaolaiTags) : List FinalEntry :=
  let width := max 4 (decLen words_ordered.length)
  words_ordered.enum.map (fun p =>
    { id := entryId width (p.1 + 1)
      word := p.2
      phonetic :=
        match List.lookup p.2 ecdict with
        | some e => e.phonetic
        | none => ""
      meaning := choose_meaning p.2 kaj ecdict
      pos := choose_pos p.2 kaj ecdict
      coca_rank :=
        match List.lookup p.2 ecdict with
        | some e => e.coca_rank
        | none => none
      tier := tier_by_word p.2
      tags := build_tags p.2 awl_words xt ecdict
      example_text := "" })

/-- The `tier_full` dict of `main` (lines 808-816) as a function: `core`
first, then `setdefault` of extended, subject, supplementary — the first
layer wins; words in no layer have no tier (empty string). -/
def tier_full_of (L : Layers) (w : String) : String :=
  if w ∈ L.core then "core"
  else if w ∈ L.layer_c then "extended"
  else if w ∈ L.layer_d then "subject"
  else if w ∈ L.layer_e then "supplementary"
  else ""

/-- The `tier_core` dict of `main` (line 818) as a function. -/
def tier_core_of (L : Layers) (w : String) : String :=
  if w ∈ L.core then "core" else ""

/-! ### Order lemmas needed by the remaining definitions -/

lemma lexLE_refl (l : List Char) : lexLE l l = true := by
  induction l with
  | nil => rfl
  | cons a as ih => simp [lexLE, lt_irrefl, ih]

lemma lexLE_total (l1 l2 : List Char) : lexLE l1 l2 = true ∨ lexLE l2 l1 = true := by
  induction l1 generalizing l2 with
  | nil => exact Or.inl rfl
  | cons a as ih =>
    cases l2 with
    | nil => exact Or.inr rfl
    | cons b bs =>
      rcases lt_trichotomy a b with hab | rfl | hba
      · exact Or.inl (by simp [lexLE, hab])
      · rcases ih bs with h | h
        · exact Or.inl (by simp [lexLE, lt_irrefl, h])
        · exact Or.inr (by simp [lexLE, lt_irrefl, h])
      · exact Or.inr (by simp [lexLE, hba])

lemma lexLE_antisymm (l1 l2 : List Char) (h12 : lexLE l1 l2 = true)
    (h21 : lexLE l2 l1 = true) : l1 = l2 := by
  induction l1 generalizing l2 with
  | nil =>
    cases l2 with
    | nil => rfl
    | cons b bs => simp [lexLE] at h21
  | cons a as ih =>
    cases l2 with
    | nil => simp [lexLE] at h12
    | cons b bs =>
      rcases lt_trichotomy a b with hab | rfl | hba
      · simp [lexLE, hab, lt_asymm hab] at h21
      · rw [ih bs (by simpa [lexLE, lt_irrefl] using h12)
          (by simpa [lexLE, lt_irrefl] using h21)]
      · simp [lexLE, hba, lt_asymm hba] at h12

lemma lexLE_trans (l1 l2 l3 : List Char) (h12 : lexLE l1 l2 = true)
    (h23 : lexLE l2 l3 = true) : lexLE l1 l3 = true := by
  induction l1 generalizing l2 l3 with
  | nil => rfl
  | cons a as ih =>
    cases l2 with
    | nil => simp [lexLE] at h12
    | cons b bs =>
      cases l3 with
      | nil => simp [lexLE] at h23
      | cons c cs =>
        rcases lt_trichotomy a b with hab | rfl | hba
        · rcases lt_trichotomy b c with hbc | rfl | hcb
          · exact (by simp [lexLE, lt_trans hab hbc])
          · exact (by simp [lexLE, hab])
          · simp [lexLE, hcb, lt_asymm hcb] at h23
        · rcases lt_trichotomy a c with hac | rfl | hca
          · exact (by simp [lexLE, hac])
          · simp only [lexLE, lt_irrefl, if_false, if_neg] at h12 h23 ⊢
            exact ih bs cs (by simpa [lexLE, lt_irrefl] using h12)
              (by simpa [lexLE, lt_irrefl] using h23)
          · simp [lexLE, hca, lt_asymm hca] at h23
        · simp [lexLE, hba, lt_asymm hba] at h12

lemma string_data_eq {s t : String} (h : s.data = t.data) : s = t := by
  cases s with
  | mk d1 =>
    cases t with
    | mk d2 => exact congrArg String.mk (by simpa using h)

lemma sortKey_word (ecdict : ECDictMap) (w : String) : (sortKey ecdict w).2.2 = w := by
  unfold sortKey
  cases rank_of w ecdict <;> rfl

lemma keyLE_iff (k1 k2 : Nat × Int × String) :
    keyLE k1 k2 = true ↔
      k1.1 < k2.1 ∨ (k1.1 = k2.1 ∧
        (k1.2.1 < k2.2.1 ∨ (k1.2.1 = k2.2.1 ∧ lexLE k1.2.2.data k2.2.2.data = true))) := by
  unfold keyLE
  split_ifs with h1 h2 h3 h4
  · simp [h1]
  · have hne : k1.1 ≠ k2.1 := by omega
    simp [h1, hne]
  · have heq : k1.1 = k2.1 := by omega
    simp [h1, heq, h3]
  · have heq : k1.1 = k2.1 := by omega
    have hne2 : k1.2.1 ≠ k2.2.1 := by omega
    simp [h1, heq, h3, hne2]
  · have heq : k1.1 = k2.1 := by omega
    have heq2 : k1.2.1 = k2.2.1 := by omega
    simp [h1, heq, h3, heq2]

lemma keyLE_total (k1 k2 : Nat × Int × String) :
    keyLE k1 k2 = true ∨ keyLE k2 k1 = true := by
  rw [keyLE_iff, keyLE_iff]
  rcases lt_trichotomy k1.1 k2.1 with h | h | h
  · exact Or.inl (Or.inl h)
  · rcases lt_trichotomy k1.2.1 k2.2.1 with h' | h' | h'
    · exact Or.inl (Or.inr ⟨h, Or.inl h'⟩)
    · rcases lexLE_total k1.2.2.data k2.2.2.data with hl | hl
      · exact Or.inl (Or.inr ⟨h, Or.inr ⟨h', hl⟩⟩)
      · exact Or.inr (Or.inr ⟨h.symm, Or.inr ⟨h'.symm, hl⟩⟩)
    · exact Or.inr (Or.inr ⟨h.symm, Or.inl h'⟩)
  · exact Or.inr (Or.inl h)

lemma keyLE_antisymm (k1 k2 : Nat × Int × String) (h12 : keyLE k1 k2 = true)
    (h21 : keyLE k2 k1 = true) : k1.2.2 = k2.2.2 := by
  rw [keyLE_iff] at h12 h21
  rcases h12 with h | ⟨he, h' | ⟨he', hl⟩⟩ <;>
    rcases h21 with g | ⟨ge, g' | ⟨ge', gl⟩⟩ <;>
      first
        | (exfalso; omega)
        | exact string_data_eq (lexLE_antisymm _ _ hl gl)

lemma keyLE_trans (k1 k2 k3 : Nat × Int × String) (h12 : keyLE k1 k2 = true)
    (h23 : keyLE k2 k3 = true) : keyLE k1 k3 = true := by
  rw [keyLE_iff] at h12 h23 ⊢
  rcases h12 with h | ⟨he, h' | ⟨he', hl⟩⟩ <;>
    rcases h23 with g | ⟨ge, g' | ⟨ge', gl⟩⟩ <;>
      first
        | exact Or.inl (by omega)
        | exact Or.inr ⟨by omega, Or.inl (by omega)⟩
        | exact Or.inr ⟨by omega, Or.inr ⟨by omega, lexLE_trans _ _ _ hl gl⟩⟩

lemma wordLE_refl (ecdict : ECDictMap) (w : String) : wordLE ecdict w w = true := by
  unfold wordLE keyLE
  simp [lt_irrefl, lexLE_refl]

lemma wordLE_total (ecdict : ECDictMap) (w1 w2 : String) :
    (wordLE ecdict w1 w2 || wordLE ecdict w2 w1) = true :=
  Bool.or_eq_true_iff.mpr (keyLE_total (sortKey ecdict w1) (sortKey ecdict w2))

lemma wordLE_trans (ecdict : ECDictMap) (w1 w2 w3 : String)
    (h12 : wordLE ecdict w1 w2 = true) (h23 : wordLE ecdict w2 w3 = true) :
    wordLE ecdict w1 w3 = true :=
  keyLE_trans _ _ _ h12 h23

lemma wordLE_antisymm (ecdict : ECDictMap) (w1 w2 : String)
    (h12 : wordLE ecdict w1 w2 = true) (h21 : wordLE ecdict w2 w1 = true) :
    w1 = w2 := by
  have := keyLE_antisymm _ _ h12 h21
  rwa [sortKey_word, sortKey_word] at this

lemma wordLE_rank_lt (ecdict : ECDictMap) (w1 w2 : String) (r1 r2 : Int)
    (h1 : rank_of w1 ecdict = some r1) (h2 : rank_of w2 ecdict = some r2)
    (hlt : r1 < r2) :
    wordLE ecdict w1 w2 = true ∧ wordLE ecdict w2 w1 = false := by
  unfold wordLE sortKey
  rw [h1, h2]
  unfold keyLE
  simp [hlt, lt_irrefl, lt_asymm hlt]

lemma wordLE_known_unknown (ecdict : ECDictMap) (w1 w2 : String) (r1 : Int)
    (h1 : rank_of w1 ecdict = some r1) (h2 : rank_of w2 ecdict = none) :
    wordLE ecdict w1 w2 = true ∧ wordLE ecdict w2 w1 = false := by
  unfold wordLE sortKey
  rw [h1, h2]
  unfold keyLE
  norm_num

lemma wordLE_rank_eq (ecdict : ECDictMap) (w1 w2 : String) (r : Int)
    (h1 : rank_of w1 ecdict = some r) (h2 : rank_of w2 ecdict = some r) :
    wordLE ecdict w1 w2 = lexLE w1.data w2.data := by
  unfold wordLE sortKey
  rw [h1, h2]
  unfold keyLE
  simp [lt_irrefl]

lemma wordLE_unknown_unknown (ecdict : ECDictMap) (w1 w2 : String)
    (h1 : rank_of w1 ecdict = none) (h2 : rank_of w2 ecdict = none) :
    wordLE ecdict w1 w2 = lexLE w1.data w2.data := by
  unfold wordLE sortKey
  rw [h1, h2]
  unfold keyLE
  simp [lt_irrefl]

instance (ecdict : ECDictMap) : IsTotal String (wordRel ecdict) :=
  ⟨fun a b => Bool.or_eq_true_iff.mp (wordLE_total ecdict a b)⟩

instance (ecdict : ECDictMap) : IsTrans String (wordRel ecdict) :=
  ⟨fun a b c => wordLE_trans ecdict a b c⟩

instance (ecdict : ECDictMap) : IsAntisymm String (wordRel ecdict) :=
  ⟨fun a b => wordLE_antisymm ecdict a b⟩

instance : IsTrans String lexRel :=
  ⟨fun a b c => lexLE_trans a.data b.data c.data⟩

instance : IsAntisymm String lexRel :=
  ⟨fun a b h1 h2 => string_data_eq (lexLE_antisymm a.data b.data h1 h2)⟩

instance : IsTotal String lexRel :=
  ⟨fun a b => lexLE_total a.data b.data⟩

/-! ### Ordering and assembly of the final lists -/

/-- Sort the distinct elements of a multiset of words lexically. -/
def wordMultisetSort (s : Multiset String) : List String :=
  Quot.liftOn s (fun l => l.insertionSort lexRel) (fun l1 l2 h =>
    List.eq_of_perm_of_sorted
      ((List.perm_insertionSort lexRel l1).trans
        (h.trans (List.perm_insertionSort lexRel l2).symm))
      (List.sorted_insertionSort lexRel l1)
      (List.sorted_insertionSort lexRel l2))

/-- Enumerate a finite set of words as a list. -/
def wordList (s : Finset String) : List String := wordMultisetSort s.val

/-- The core output order (line 820). -/
def core_order (L : Layers) (ecdict : ECDictMap) : List String :=
  sort_words_by_rank (wordList L.core) ecdict

/-- The full output order (lines 822-830): sorted tiers concatenated in
priority order, then first-occurrence deduplication. -/
def full_order (L : Layers) (ecdict : ECDictMap) : List String :=
  dedupFirst (core_order L ecdict ++
    (sort_words_by_rank (wordList L.layer_c) ecdict ++
      (sort_words_by_rank (wordList L.layer_d) ecdict ++
        sort_words_by_rank (wordList L.layer_e) ecdict)))

/-- The assembly stage of `main` (lines 797-834): build the layers, order
them, and produce the core and full entry lists. -/
def run_pipeline (kaj : KajMap) (ecdict : ECDictMap) (xt : XiaolaiTags)
    (awl_words : Finset String) (cmax fmax : Int) :
    List FinalEntry × List FinalEntry :=
  let L := build_layers kaj ecdict xt awl_words cmax fmax
  (make_entries (core_order L ecdict) (tier_core_of L) kaj ecdict awl_words xt,
    make_entries (full_order L ecdict) (tier_full_of L) kaj ecdict awl_words xt)

/-! ### Theorems -/

lemma rank_le_iff (ecdict : ECDictMap) (m : Int) (w : String) :
    rank_le ecdict m w = true ↔ ∃ r, rank_of w ecdict = some r ∧ r ≤ m := by
  unfold rank_le
  cases h : rank_of w ecdict with
  | none => simp
  | some r => simp

lemma rank_between_iff (ecdict : ECDictMap) (cmax fmax : Int) (w : String) :
    rank_between ecdict cmax fmax w = true ↔
      ∃ r, rank_of w ecdict = some r ∧ cmax < r ∧ r ≤ fmax := by
  unfold rank_between
  cases h : rank_of w ecdict with
  | none => simp
  | some r => simp

lemma mem_layer_a_iff (kaj : KajMap) (ecdict : ECDictMap) (xt : XiaolaiTags)
    (awl : Finset String) (cmax fmax : Int) (w : String) :
    w ∈ (build_layers kaj ecdict xt awl cmax fmax).layer_a ↔
      w ∈ kajKeys kaj ∧ ∃ r, rank_of w ecdict = some r ∧ r ≤ cmax := by
  simp [build_layers, Finset.mem_filter, rank_le_iff]

lemma mem_layer_b_iff (kaj : KajMap) (ecdict : ECDictMap) (xt : XiaolaiTags)
    (awl : Finset String) (cmax fmax : Int) (w : String) :
    w ∈ (build_layers kaj ecdict xt awl cmax fmax).layer_b ↔
      w ∈ kajKeys kaj ∧ w ∈ awl := by
  simp [build_layers, Finset.mem_inter]

lemma core_eq_union (kaj : KajMap) (ecdict : ECDictMap) (xt : XiaolaiTags)
    (awl : Finset String) (cmax fmax : Int) :
    (build_layers kaj ecdict xt awl cmax fmax).core =
      (build_layers kaj ecdict xt awl cmax fmax).layer_a ∪
        (build_layers kaj ecdict xt awl cmax fmax).layer_b := by
  simp [build_layers]

lemma mem_layer_c_iff (kaj : KajMap) (ecdict : ECDictMap) (xt : XiaolaiTags)
    (awl : Finset String) (cmax fmax : Int) (w : String) :
    w ∈ (build_layers kaj ecdict xt awl cmax fmax).layer_c ↔
      w ∈ kajKeys kaj ∧
        (∃ r, rank_of w ecdict = some r ∧ cmax < r ∧ r ≤ fmax) ∧
          w ∉ (build_layers kaj ecdict xt awl cmax fmax).core := by
  simp only [build_layers, Finset.mem_filter, rank_between_iff]

lemma mem_layer_d_iff (kaj : KajMap) (ecdict : ECDictMap) (xt : XiaolaiTags)
    (awl : Finset String) (cmax fmax : Int) (w : String) :
    w ∈ (build_layers kaj ecdict xt awl cmax fmax).layer_d ↔
      w ∈ xiaolaiKeys xt ∧
        w ∉ (build_layers kaj ecdict xt awl cmax fmax).core ∧
          w ∉ (build_layers kaj ecdict xt awl cmax fmax).layer_c := by
  simp only [build_layers, Finset.mem_sdiff]
  tauto

lemma mem_toefl_filter_iff (ecdict : ECDictMap) (occ : Finset String) (w : String) :
    w ∈ ((ecdict.filter
        (fun p => decide (p.1 ∉ occ) && decide ("toefl" ∈ p.2.tags))).map Prod.fst).toFinset ↔
      (∃ info, (w, info) ∈ ecdict ∧ "toefl" ∈ info.tags) ∧ w ∉ occ := by
  simp only [List.mem_toFinset, List.mem_map, List.mem_filter, Bool.and_eq_true,
    decide_eq_true_eq]
  constructor
  · rintro ⟨p, ⟨hp, hocc, htag⟩, rfl⟩
    exact ⟨⟨p.2, hp, htag⟩, hocc⟩
  · rintro ⟨⟨info, hmem, htag⟩, hocc⟩
    exact ⟨(w, info), ⟨hmem, hocc, htag⟩, rfl⟩

lemma mem_layer_e_iff (kaj : KajMap) (ecdict : ECDictMap) (xt : XiaolaiTags)
    (awl : Finset String) (cmax fmax : Int) (w : String) :
    w ∈ (build_layers kaj ecdict xt awl cmax fmax).layer_e ↔
      (∃ info, (w, info) ∈ ecdict ∧ "toefl" ∈ info.tags) ∧
        (w ∉ (build_layers kaj ecdict xt awl cmax fmax).core ∧
          w ∉ (build_layers kaj ecdict xt awl cmax fmax).layer_c ∧
            w ∉ (build_layers kaj ecdict xt awl cmax fmax).layer_d) := by
  have he : (build_layers kaj ecdict xt awl cmax fmax).layer_e =
      ((ecdict.filter (fun p => decide (p.1 ∉
          ((build_layers kaj ecdict xt awl cmax fmax).core ∪
            (build_layers kaj ecdict xt awl cmax fmax).layer_c ∪
              (build_layers kaj ecdict xt awl cmax fmax).layer_d)) &&
        decide ("toefl" ∈ p.2.tags))).map Prod.fst).toFinset := rfl
  rw [he, mem_toefl_filter_iff]
  simp only [Finset.mem_union, not_or]
  tauto

lemma full_eq_union (kaj : KajMap) (ecdict : ECDictMap) (xt : XiaolaiTags)
    (awl : Finset String) (cmax fmax : Int) :
    (build_layers kaj ecdict xt awl cmax fmax).full =
      (build_layers kaj ecdict xt awl cmax fmax).core ∪
        (build_layers kaj ecdict xt awl cmax fmax).layer_c ∪
          (build_layers kaj ecdict xt awl cmax fmax).layer_d ∪
            (build_layers kaj ecdict xt awl cmax fmax).layer_e := by
  simp [build_layers]

/-- Claim C1: `build_layers` computes the layers exactly as specified —
`layer_a` is the set of headword-universe words with known rank `≤ cmax`;
`layer_b` is the headword universe intersected with the academic set;
`core = layer_a ∪ layer_b`; `layer_c` is the headword-universe words with
known rank in `(cmax, fmax]` not already in `core`; `layer_d` is the
subject-tagged words not in `core` or `layer_c`; `layer_e` is the
frequency-mapping words not in `core`, `layer_c` or `layer_d` whose tag
set contains `"toefl"`; `full` is the union of `core` and layers C, D, E.
Consequently a word with no known rank, outside the academic set, not
subject-tagged and never exam-tagged is in none of the seven sets. -/
theorem build_layers_exact (kaj : KajMap) (ecdict : ECDictMap) (xt : XiaolaiTags)
    (awl : Finset String) (cmax fmax : Int) :
    (∀ w, w ∈ (build_layers kaj ecdict xt awl cmax fmax).layer_a ↔
      w ∈ kajKeys kaj ∧ ∃ r, rank_of w ecdict = some r ∧ r ≤ cmax) ∧
    (∀ w, w ∈ (build_layers kaj ecdict xt awl cmax fmax).layer_b ↔
      w ∈ kajKeys kaj ∧ w ∈ awl) ∧
    ((build_layers kaj ecdict xt awl cmax fmax).core =
      (build_layers kaj ecdict xt awl cmax fmax).layer_a ∪
        (build_layers kaj ecdict xt awl cmax fmax).layer_b) ∧
    (∀ w, w ∈ (build_layers kaj ecdict xt awl cmax fmax).layer_c ↔
      w ∈ kajKeys kaj ∧ (∃ r, rank_of w ecdict = some r ∧ cmax < r ∧ r ≤ fmax) ∧
        w ∉ (build_layers kaj ecdict xt awl cmax fmax).core) ∧
    (∀ w, w ∈ (build_layers kaj ecdict xt awl cmax fmax).layer_d ↔
      w ∈ xiaolaiKeys xt ∧ w ∉ (build_layers kaj ecdict xt awl cmax fmax).core ∧
        w ∉ (build_layers kaj ecdict xt awl cmax fmax).layer_c) ∧
    (∀ w, w ∈ (build_layers kaj ecdict xt awl cmax fmax).layer_e ↔
      (∃ info, (w, info) ∈ ecdict ∧ "toefl" ∈ info.tags) ∧
        (w ∉ (build_layers kaj ecdict xt awl cmax fmax).core ∧
          w ∉ (build_layers kaj ecdict xt awl cmax fmax).layer_c ∧
            w ∉ (build_layers kaj ecdict xt awl cmax fmax).layer_d)) ∧
    ((build_layers kaj ecdict xt awl cmax fmax).full =
      (build_layers kaj ecdict xt awl cmax fmax).core ∪
        (build_layers kaj ecdict xt awl cmax fmax).layer_c ∪
          (build_layers kaj ecdict xt awl cmax fmax).layer_d ∪
            (build_layers kaj ecdict xt awl cmax fmax).layer_e) ∧
    (∀ w, rank_of w ecdict = none → w ∉ awl → w ∉ xiaolaiKeys xt →
      (∀ info, (w, info) ∈ ecdict → "toefl" ∉ info.tags) →
        w ∉ (build_layers kaj ecdict xt awl cmax fmax).layer_a ∧
        w ∉ (build_layers kaj ecdict xt awl cmax fmax).layer_b ∧
        w ∉ (build_layers kaj ecdict xt awl cmax fmax).core ∧
        w ∉ (build_layers kaj ecdict xt awl cmax fmax).layer_c ∧
        w ∉ (build_layers kaj ecdict xt awl cmax fmax).layer_d ∧
        w ∉ (build_layers kaj ecdict xt awl cmax fmax).layer_e ∧
        w ∉ (build_layers kaj ecdict xt awl cmax fmax).full) := by
  refine ⟨mem_layer_a_iff kaj ecdict xt awl cmax fmax,
    mem_layer_b_iff kaj ecdict xt awl cmax fmax,
    core_eq_union kaj ecdict xt awl cmax fmax,
    mem_layer_c_iff kaj ecdict xt awl cmax fmax,
    mem_layer_d_iff kaj ecdict xt awl cmax fmax,
    mem_layer_e_iff kaj ecdict xt awl cmax fmax,
    full_eq_union kaj ecdict xt awl cmax fmax, ?_⟩
  intro w hrank hawl hxt htag
  have ha : w ∉ (build_layers kaj ecdict xt awl cmax fmax).layer_a := by
    rw [mem_layer_a_iff]
    rintro ⟨-, r, hr, -⟩
    rw [hrank] at hr
    exact Option.noConfusion hr
  have hb : w ∉ (build_layers kaj ecdict xt awl cmax fmax).layer_b := by
    rw [mem_layer_b_iff]
    rintro ⟨-, h⟩
    exact hawl h
  have hc : w ∉ (build_layers kaj ecdict xt awl cmax fmax).core := by
    rw [core_eq_union, Finset.mem_union]
    rintro (h | h)
    · exact ha h
    · exact hb h
  have hlc : w ∉ (build_layers kaj ecdict xt awl cmax fmax).layer_c := by
    rw [mem_layer_c_iff]
    rintro ⟨-, ⟨r, hr, -⟩, -⟩
    rw [hrank] at hr
    exact Option.noConfusion hr
  have hld : w ∉ (build_layers kaj ecdict xt awl cmax fmax).layer_d := by
    rw [mem_layer_d_iff]
    rintro ⟨h, -⟩
    exact hxt h
  have hle : w ∉ (build_layers kaj ecdict xt awl cmax fmax).layer_e := by
    rw [mem_layer_e_iff]
    rintro ⟨⟨info, hmem, ht⟩, -⟩
    exact htag info hmem ht
  refine ⟨ha, hb, hc, hlc, hld, hle, ?_⟩
  rw [full_eq_union]
  simp only [Finset.mem_union]
  rintro (((h | h) | h) | h)
  · exact hc h
  · exact hlc h
  · exact hld h
  · exact hle h

/-- Witness for C1: in the concrete scenario where the only signals are a
rank for "abate" and academic membership of "zephyr", the word "quux" (no
rank, no signals) lands in none of the seven sets. -/
theorem build_layers_exact_witness :
    "quux" ∉ (build_layers [("abate", ⟨"减弱", ""⟩), ("quux", ⟨"某词", ""⟩)]
      [("abate", ⟨"", "", some 4200, ∅, ""⟩)] [] {"zephyr"} 5000 15000).full := by
  have h := (build_layers_exact [("abate", ⟨"减弱", ""⟩), ("quux", ⟨"某词", ""⟩)]
    [("abate", ⟨"", "", some 4200, ∅, ""⟩)] [] {"zephyr"} 5000 15000).2.2.2.2.2.2.2
  exact (h "quux" (by decide) (by decide) (by decide)
    (by intro info hmem; simp at hmem)).2.2.2.2.2.2

/-- Claim C2, counterexample: `layer_a` and `layer_b` are not disjoint.  A
headword with a rank below the core threshold that is also in the academic
word set lands in both: here "zeal" has rank 100 and is in the AWL set. -/
theorem layers_ab_overlap_cex :
    ¬ Disjoint
      (build_layers [("zeal", ⟨"热心", ""⟩)] [("zeal", ⟨"", "", some 100, ∅, ""⟩)]
        [] {"zeal"} 5000 15000).layer_a
      (build_layers [("zeal", ⟨"热心", ""⟩)] [("zeal", ⟨"", "", some 100, ∅, ""⟩)]
        [] {"zeal"} 5000 15000).layer_b := by
  rw [Finset.not_disjoint_iff]
  exact ⟨"zeal", by decide, by decide⟩

/-- Claim C2 (amended): `core ⊆ full`, and every pair of layers among
A, B, C, D, E is disjoint except the pair (`layer_a`, `layer_b`), which may
overlap (both are subsets of `core`). -/
theorem core_subset_full_and_layers_disjoint (kaj : KajMap) (ecdict : ECDictMap)
    (xt : XiaolaiTags) (awl : Finset String) (cmax fmax : Int) :
    (build_layers kaj ecdict xt awl cmax fmax).core ⊆
        (build_layers kaj ecdict xt awl cmax fmax).full ∧
      Disjoint (build_layers kaj ecdict xt awl cmax fmax).layer_a
        (build_layers kaj ecdict xt awl cmax fmax).layer_c ∧
      Disjoint (build_layers kaj ecdict xt awl cmax fmax).layer_a
        (build_layers kaj ecdict xt awl cmax fmax).layer_d ∧
      Disjoint (build_layers kaj ecdict xt awl cmax fmax).layer_a
        (build_layers kaj ecdict xt awl cmax fmax).layer_e ∧
      Disjoint (build_layers kaj ecdict xt awl cmax fmax).layer_b
        (build_layers kaj ecdict xt awl cmax fmax).layer_c ∧
      Disjoint (build_layers kaj ecdict xt awl cmax fmax).layer_b
        (build_layers kaj ecdict xt awl cmax fmax).layer_d ∧
      Disjoint (build_layers kaj ecdict xt awl cmax fmax).layer_b
        (build_layers kaj ecdict xt awl cmax fmax).layer_e ∧
      Disjoint (build_layers kaj ecdict xt awl cmax fmax).layer_c
        (build_layers kaj ecdict xt awl cmax fmax).layer_d ∧
      Disjoint (build_layers kaj ecdict xt awl cmax fmax).layer_c
        (build_layers kaj ecdict xt awl cmax fmax).layer_e ∧
      Disjoint (build_layers kaj ecdict xt awl cmax fmax).layer_d
        (build_layers kaj ecdict xt awl cmax fmax).layer_e := by
  have hA : (build_layers kaj ecdict xt awl cmax fmax).layer_a ⊆
      (build_layers kaj ecdict xt awl cmax fmax).core := by
    rw [core_eq_union]
    exact Finset.subset_union_left
  have hB : (build_layers kaj ecdict xt awl cmax fmax).layer_b ⊆
      (build_layers kaj ecdict xt awl cmax fmax).core := by
    rw [core_eq_union]
    exact Finset.subset_union_right
  have hcC : Disjoint (build_layers kaj ecdict xt awl cmax fmax).core
      (build_layers kaj ecdict xt awl cmax fmax).layer_c :=
    Finset.disjoint_right.mpr fun w hw =>
      ((mem_layer_c_iff kaj ecdict xt awl cmax fmax w).1 hw).2.2
  have hcD : Disjoint (build_layers kaj ecdict xt awl cmax fmax).core
      (build_layers kaj ecdict xt awl cmax fmax).layer_d :=
    Finset.disjoint_right.mpr fun w hw =>
      ((mem_layer_d_iff kaj ecdict xt awl cmax fmax w).1 hw).2.1
  have hcE : Disjoint (build_layers kaj ecdict xt awl cmax fmax).core
      (build_layers kaj ecdict xt awl cmax fmax).layer_e :=
    Finset.disjoint_right.mpr fun w hw =>
      ((mem_layer_e_iff kaj ecdict xt awl cmax fmax w).1 hw).2.1
  have hCD : Disjoint (build_layers kaj ecdict xt awl cmax fmax).layer_c
      (build_layers kaj ecdict xt awl cmax fmax).layer_d :=
    Finset.disjoint_right.mpr fun w hw =>
      ((mem_layer_d_iff kaj ecdict xt awl cmax fmax w).1 hw).2.2
  have hCE : Disjoint (build_layers kaj ecdict xt awl cmax fmax).layer_c
      (build_layers kaj ecdict xt awl cmax fmax).layer_e :=
    Finset.disjoint_right.mpr fun w hw =>
      ((mem_layer_e_iff kaj ecdict xt awl cmax fmax w).1 hw).2.2.1
  have hDE : Disjoint (build_layers kaj ecdict xt awl cmax fmax).layer_d
      (build_layers kaj ecdict xt awl cmax fmax).layer_e :=
    Finset.disjoint_right.mpr fun w hw =>
      ((mem_layer_e_iff kaj ecdict xt awl cmax fmax w).1 hw).2.2.2
  refine ⟨?_, hcC.mono_left hA, hcD.mono_left hA, hcE.mono_left hA,
    hcC.mono_left hB, hcD.mono_left hB, hcE.mono_left hB, hCD, hCE, hDE⟩
  rw [full_eq_union]
  exact (Finset.subset_union_left.trans Finset.subset_union_left).trans
    Finset.subset_union_left

/-- Witness for C2 (amended): at the counterexample input the academic
headword "zeal" is in `core`, hence by the subset part it is in `full`. -/
theorem core_subset_full_witness :
    "zeal" ∈ (build_layers [("zeal", ⟨"热心", ""⟩)]
      [("zeal", ⟨"", "", some 100, ∅, ""⟩)] [] {"zeal"} 5000 15000).full :=
  (core_subset_full_and_layers_disjoint [("zeal", ⟨"热心", ""⟩)]
    [("zeal", ⟨"", "", some 100, ∅, ""⟩)] [] {"zeal"} 5000 15000).1 (by decide)

/-- Claim C3, counterexample: neither intra-source merge is commutative.
Two same-length meanings: the headword merge keeps the old one, so the two
argument orders give different records; two non-empty phonetics: the
frequency merge keeps the first, likewise order-dependent. -/
theorem merge_not_commutative_cex :
    merge_kaj_word ⟨"ab", ""⟩ ⟨"cd", ""⟩ ≠ merge_kaj_word ⟨"cd", ""⟩ ⟨"ab", ""⟩ ∧
      merge_ecdict_word ⟨"/a/", "", none, ∅, ""⟩ ⟨"/b/", "", none, ∅, ""⟩ ≠
        merge_ecdict_word ⟨"/b/", "", none, ∅, ""⟩ ⟨"/a/", "", none, ∅, ""⟩ := by
  exact ⟨by decide, by decide⟩

/-- Claim C3 (amended): both intra-source merge operations are idempotent —
`merge(a, a) = a` — so loading an identical record twice yields the same
merged record as loading it once.  (They are not commutative: ties on
meaning length and the first-non-empty rules depend on argument order.) -/
theorem merge_idempotent (a : KajWord) (r : ECDictWord) :
    merge_kaj_word a a = a ∧ merge_ecdict_word r r = r := by
  cases a with
  | mk m p =>
    cases r with
    | mk ph ps rk tg mn =>
      cases rk <;> simp [merge_kaj_word, merge_ecdict_word]

/-- Claim C7: with a non-positive threshold or `fullMax < coreMax` the run
fails with a fatal configuration error, and no loader is invoked — the
outcome does not depend on the loading continuation at all. -/
theorem config_validated_before_loading (cmax fmax : Int)
    (h : cmax ≤ 0 ∨ fmax ≤ 0 ∨ fmax < cmax) {α : Type} (load1 load2 : Unit → α) :
    (∃ msg, main_validate_then_load cmax fmax load1 = RunOutcome.configError msg) ∧
      main_validate_then_load cmax fmax load1 = main_validate_then_load cmax fmax load2 := by
  by_cases h1 : cmax ≤ 0 ∨ fmax ≤ 0
  · exact ⟨⟨"COCA 阈值必须为正整数", by simp [main_validate_then_load, h1]⟩,
      by simp [main_validate_then_load, h1]⟩
  · have h2 : fmax < cmax := by tauto
    exact ⟨⟨"full-coca-max 必须 >= core-coca-max",
        by simp [main_validate_then_load, h1, h2]⟩,
      by simp [main_validate_then_load, h1, h2]⟩

/-- Witness for C7: with `coreMax = 0` the run is rejected whatever the
loaders would have returned. -/
theorem config_validated_before_loading_witness :
    (∃ msg, main_validate_then_load 0 5 (fun _ => (1 : Nat)) = RunOutcome.configError msg) ∧
      main_validate_then_load 0 5 (fun _ => (1 : Nat)) =
        main_validate_then_load 0 5 (fun _ => (2 : Nat)) :=
  config_validated_before_loading 0 5 (Or.inl (by decide)) (fun _ => 1) (fun _ => 2)

/-- Claim C8: the coverage-ratio computation is total (it is a function):
a zero or negative denominator yields exactly 0, never an error, and a
positive denominator yields the quotient. -/
theorem calc_ratio_total (n d : Int) :
    (d ≤ 0 → calc_ratio n d = 0) ∧
      (0 < d → calc_ratio n d = (n : ℚ) / (d : ℚ)) := by
  constructor
  · intro h
    simp [ calc_ratio, h]
  · intro h
    rw [ calc_ratio, if_neg (by omega)]

/-- Witness for C8: the empty-list ratio is 0, a real one divides. -/
theorem calc_ratio_total_witness :
    calc_ratio 3 0 = 0 ∧ calc_ratio 3 2 = (3 : ℚ) / (2 : ℚ) :=
  ⟨(calc_ratio_total 3 0).1 (by decide), (calc_ratio_total 3 2).2 (by decide)⟩

lemma sort_words_sorted (words : List String) (ecdict : ECDictMap) :
    List.Pairwise (wordRel ecdict) (sort_words_by_rank words ecdict) :=
  List.sorted_insertionSort (wordRel ecdict) words.dedup

lemma sort_pos_lt (words : List String) (ecdict : ECDictMap) (i j : Nat)
    (hi : i < (sort_words_by_rank words ecdict).length)
    (hj : j < (sort_words_by_rank words ecdict).length)
    (hne : wordLE ecdict ((sort_words_by_rank words ecdict).get ⟨j, hj⟩)
      ((sort_words_by_rank words ecdict).get ⟨i, hi⟩) = false) :
    i < j := by
  rcases lt_trichotomy i j with h | h | h
  · exact h
  · exfalso
    subst h
    rw [wordLE_refl] at hne
    exact Bool.noConfusion hne
  · exfalso
    have hrel := List.pairwise_iff_get.mp (sort_words_sorted words ecdict)
      ⟨j, hj⟩ ⟨i, hi⟩ h
    have heq : wordLE ecdict ((sort_words_by_rank words ecdict).get ⟨j, hj⟩)
        ((sort_words_by_rank words ecdict).get ⟨i, hi⟩) = true := hrel
    rw [heq] at hne
    exact Bool.noConfusion hne

/-- Claim C4: the per-tier comparison is a total order (total, transitive,
antisymmetric); a word with a known rank sorts strictly before any word
with no known rank; among known ranks the lower rank sorts strictly first,
with lexical order only on exact rank ties; among rank-less words lexical
order decides; and in any sorted batch a word with rank `r1` appears at a
strictly smaller index than any word with rank `r2 > r1`. -/
theorem sort_words_total_order (ecdict : ECDictMap) (w1 w2 : String) :
    ((wordLE ecdict w1 w2 || wordLE ecdict w2 w1) = true) ∧
      (∀ w3, wordLE ecdict w1 w2 = true → wordLE ecdict w2 w3 = true →
        wordLE ecdict w1 w3 = true) ∧
      (wordLE ecdict w1 w2 = true → wordLE ecdict w2 w1 = true → w1 = w2) ∧
      (∀ r1, rank_of w1 ecdict = some r1 → rank_of w2 ecdict = none →
        wordLE ecdict w1 w2 = true ∧ wordLE ecdict w2 w1 = false) ∧
      (∀ r1 r2, rank_of w1 ecdict = some r1 → rank_of w2 ecdict = some r2 →
        r1 < r2 → wordLE ecdict w1 w2 = true ∧ wordLE ecdict w2 w1 = false) ∧
      (∀ r, rank_of w1 ecdict = some r → rank_of w2 ecdict = some r →
        wordLE ecdict w1 w2 = lexLE w1.data w2.data) ∧
      (rank_of w1 ecdict = none → rank_of w2 ecdict = none →
        wordLE ecdict w1 w2 = lexLE w1.data w2.data) ∧
      (∀ (ws : List String) (r1 r2 : Int) (i j : Nat)
          (hi : i < (sort_words_by_rank ws ecdict).length)
          (hj : j < (sort_words_by_rank ws ecdict).length),
        (sort_words_by_rank ws ecdict).get ⟨i, hi⟩ = w1 →
          (sort_words_by_rank ws ecdict).get ⟨j, hj⟩ = w2 →
            rank_of w1 ecdict = some r1 → rank_of w2 ecdict = some r2 →
              r1 < r2 → i < j) := by
  refine ⟨wordLE_total ecdict w1 w2,
    fun w3 h12 h23 => wordLE_trans ecdict w1 w2 w3 h12 h23,
    wordLE_antisymm ecdict w1 w2,
    fun r1 h1 h2 => wordLE_known_unknown ecdict w1 w2 r1 h1 h2,
    fun r1 r2 h1 h2 hlt => wordLE_rank_lt ecdict w1 w2 r1 r2 h1 h2 hlt,
    fun r h1 h2 => wordLE_rank_eq ecdict w1 w2 r h1 h2,
    wordLE_unknown_unknown ecdict w1 w2, ?_⟩
  intro ws r1 r2 i j hi hj hgi hgj h1 h2 hlt
  apply sort_pos_lt ws ecdict i j hi hj
  rw [hgi, hgj]
  exact (wordLE_rank_lt ecdict w1 w2 r1 r2 h1 h2 hlt).2

/-- Witness for C4: with rank 4200 for "abate" and no entry for "zephyr",
"abate" compares strictly before "zephyr". -/
theorem sort_words_total_order_witness :
    wordLE [("abate", ⟨"", "", some 4200, ∅, ""⟩)] "abate" "zephyr" = true ∧
      wordLE [("abate", ⟨"", "", some 4200, ∅, ""⟩)] "zephyr" "abate" = false :=
  (sort_words_total_order [("abate", ⟨"", "", some 4200, ∅, ""⟩)]
    "abate" "zephyr").2.2.2.1 4200 (by decide) (by decide)

/-- Claim C10: rank parsing yields `none` for absent, empty, non-numeric
and non-positive values, truncates numeric values toward zero (floor for
non-negative, ceiling for negative), every stored rank is strictly
positive, and a row whose rank truncates to `≤ 0` produces exactly the
record a rank-less row produces — hence behaves identically in tiering
and ordering. -/
theorem parse_coca_rank_normalizes (raw : RawRank) (n : Int) (q : ℚ) :
    (parse_coca_rank raw = some n → 0 < n) ∧
      parse_coca_rank RawRank.absent = none ∧
      parse_coca_rank RawRank.empty = none ∧
      parse_coca_rank RawRank.nonNumeric = none ∧
      (0 ≤ q → truncTowardZero q = ⌊q⌋) ∧
      (q < 0 → truncTowardZero q = ⌈q⌉) ∧
      (0 < truncTowardZero q →
        parse_coca_rank (RawRank.numeric q) = some (truncTowardZero q)) ∧
      (truncTowardZero q ≤ 0 →
        parse_coca_rank (RawRank.numeric q) = parse_coca_rank RawRank.absent) ∧
      (∀ (phon ps mean : String) (tags : Finset String), truncTowardZero q ≤ 0 →
        ECDictWord.mk phon ps (parse_coca_rank (RawRank.numeric q)) tags mean =
          ECDictWord.mk phon ps none tags mean) := by
  have hnum : truncTowardZero q ≤ 0 → parse_coca_rank (RawRank.numeric q) = none := by
    intro h
    simp only [parse_coca_rank]
    rw [if_neg (by omega)]
  refine ⟨?_, rfl, rfl, rfl, ?_, ?_, ?_, ?_, ?_⟩
  · intro hsome
    cases raw with
    | absent => exact absurd hsome (by simp [parse_coca_rank])
    | empty => exact absurd hsome (by simp [parse_coca_rank])
    | nonNumeric => exact absurd hsome (by simp [parse_coca_rank])
    | numeric q' =>
      simp only [parse_coca_rank] at hsome
      by_cases hpos : 0 < truncTowardZero q'
      · rw [if_pos hpos] at hsome
        exact Option.some.inj hsome ▸ hpos
      · rw [if_neg hpos] at hsome
        exact Option.noConfusion hsome
  · intro h
    simp [truncTowardZero, h]
  · intro h
    simp [truncTowardZero, not_le.mpr h]
  · intro h
    simp only [parse_coca_rank]
    rw [if_pos h]
  · intro h
    rw [hnum h]
    rfl
  · intro phon ps mean tags h
    rw [hnum h]

/-- Witness for C10: the numeric value 3 is stored as rank 3; the numeric
value -2 is normalized to absent. -/
theorem parse_coca_rank_normalizes_witness :
    parse_coca_rank (RawRank.numeric 3) = some (truncTowardZero 3) ∧
      parse_coca_rank (RawRank.numeric (-2)) = parse_coca_rank RawRank.absent :=
  ⟨(parse_coca_rank_normalizes RawRank.absent 1 3).2.2.2.2.2.2.1
      (by rw [truncTowardZero, if_pos (by norm_num)]
          exact Int.le_floor.mpr (by norm_num)),
    (parse_coca_rank_normalizes RawRank.absent 1 (-2)).2.2.2.2.2.2.2.1
      (by rw [truncTowardZero, if_neg (by norm_num)]
          exact Int.ceil_le.mpr (by norm_num))⟩

lemma decDigitsAux_eq (fuel : Nat) : ∀ n, n ≤ fuel → decDigitsAux fuel n = Nat.digits 10 n := by
  induction fuel with
  | zero =>
    intro n hn
    have : n = 0 := by omega
    subst this
    simp [decDigitsAux, Nat.digits_zero]
  | succ f ih =>
    intro n hn
    cases n with
    | zero => simp [decDigitsAux, Nat.digits_zero]
    | succ m =>
      rw [decDigitsAux, ih ((m + 1) / 10) (by omega),
        Nat.digits_def' (by norm_num : (1 : Nat) < 10) (Nat.succ_pos m)]

lemma decDigits_eq (n : Nat) : decDigits n = Nat.digits 10 n :=
  decDigitsAux_eq n n le_rfl

lemma decLen_mono {m n : Nat} (h : m ≤ n) : decLen m ≤ decLen n := by
  unfold decLen
  split_ifs with h1 h2 h2
  · exact le_rfl
  · rw [decDigits_eq, Nat.digits_len 10 n (by norm_num) h2]
    omega
  · omega
  · rw [decDigits_eq, decDigits_eq]
    exact Nat.le_digits_len_le 10 m n h

lemma decStr_length (n : Nat) : (decStr n).length = decLen n := by
  unfold decStr decLen
  split_ifs with h
  · rfl
  · show ((decDigits n).reverse.map (fun d => Char.ofNat (48 + d))).length = _
    rw [List.length_map, List.length_reverse]

lemma padLeft_length (width : Nat) (s : String) (h : s.length ≤ width) :
    (padLeft width s).length = width := by
  unfold padLeft
  rw [String.length_append]
  show (List.replicate (width - s.length) '0').length + s.length = width
  rw [List.length_replicate]
  omega

lemma entryId_length (width idx : Nat) (h : decLen idx ≤ width) :
    (entryId width idx).length = 6 + width := by
  unfold entryId
  rw [String.length_append, padLeft_length width _ (by rw [decStr_length]; exact h)]
  rfl

lemma make_entries_length (ws : List String) (tb : String → String) (kaj : KajMap)
    (ecdict : ECDictMap) (awl : Finset String) (xt : XiaolaiTags) :
    (make_entries ws tb kaj ecdict awl xt).length = ws.length := by
  unfold make_entries
  rw [List.length_map, List.enum_length]

/-- Claim C5: for an output list of `N` entries the id fields are exactly
the ids of `1..N` in emission order, each of the same total length
`6 + width` (the `toefl_` prefix plus the number zero-padded to `width`),
where `width = max 4 (digit count of N)`. -/
theorem make_entries_ids (ws : List String) (tb : String → String) (kaj : KajMap)
    (ecdict : ECDictMap) (awl : Finset String) (xt : XiaolaiTags) :
    (make_entries ws tb kaj ecdict awl xt).length = ws.length ∧
      ∀ i (hi : i < (make_entries ws tb kaj ecdict awl xt).length),
        ((make_entries ws tb kaj ecdict awl xt).get ⟨i, hi⟩).id =
            entryId (max 4 (decLen ws.length)) (i + 1) ∧
          (((make_entries ws tb kaj ecdict awl xt).get ⟨i, hi⟩).id).length =
            6 + max 4 (decLen ws.length) := by
  refine ⟨make_entries_length ws tb kaj ecdict awl xt, ?_⟩
  intro i hi
  have hlen : i < ws.length := by
    rwa [make_entries_length] at hi
  have hid : ((make_entries ws tb kaj ecdict awl xt).get ⟨i, hi⟩).id =
      entryId (max 4 (decLen ws.length)) (i + 1) := by
    unfold make_entries
    rw [List.get_eq_getElem]
    simp only [List.getElem_map, List.getElem_enum]
  refine ⟨hid, ?_⟩
  rw [hid]
  apply entryId_length
  have h1 : decLen (i + 1) ≤ decLen ws.length := decLen_mono (by omega)
  exact h1.trans (le_max_right 4 (decLen ws.length))

/-- Witness for C5: a two-word list gets ids of width 4 starting at
`toefl_0001`. -/
theorem make_entries_ids_witness :
    ((make_entries ["abate", "zephyr"] (fun _ => "core") [] [] ∅ []).get
        ⟨0, by decide⟩).id = entryId (max 4 (decLen 2)) 1 :=
  ((make_entries_ids ["abate", "zephyr"] (fun _ => "core") [] [] ∅ []).2 0
    (by decide)).1

lemma make_entries_map_word (ws : List String) (tb : String → String) (kaj : KajMap)
    (ecdict : ECDictMap) (awl : Finset String) (xt : XiaolaiTags) :
    (make_entries ws tb kaj ecdict awl xt).map (fun e => e.word) = ws := by
  unfold make_entries
  rw [List.map_map]
  exact List.enum_map_snd ws

lemma make_entries_tier (ws : List String) (tb : String → String) (kaj : KajMap)
    (ecdict : ECDictMap) (awl : Finset String) (xt : XiaolaiTags) :
    ∀ ent ∈ make_entries ws tb kaj ecdict awl xt,
      ent.tier = tb ent.word ∧ ent.word ∈ ws := by
  intro ent hent
  have hword : ent.word ∈ (make_entries ws tb kaj ecdict awl xt).map (fun e => e.word) :=
    List.mem_map_of_mem _ hent
  rw [make_entries_map_word] at hword
  refine ⟨?_, hword⟩
  unfold make_entries at hent
  rw [List.mem_map] at hent
  obtain ⟨p, hp, rfl⟩ := hent
  rfl

lemma sort_words_nodup (ws : List String) (ecdict : ECDictMap) :
    (sort_words_by_rank ws ecdict).Nodup :=
  (List.perm_insertionSort (wordRel ecdict) ws.dedup).symm.nodup (List.nodup_dedup ws)

lemma mem_sort_words (ws : List String) (ecdict : ECDictMap) (w : String) :
    w ∈ sort_words_by_rank ws ecdict ↔ w ∈ ws := by
  unfold sort_words_by_rank
  rw [(List.perm_insertionSort _ _).mem_iff, List.mem_dedup]

lemma mem_wordList (s : Finset String) (w : String) : w ∈ wordList s ↔ w ∈ s := by
  cases s with
  | mk val nd =>
    induction val using Quot.inductionOn with
    | h l =>
      show w ∈ l.insertionSort lexRel ↔ _
      rw [(List.perm_insertionSort lexRel l).mem_iff]
      simp [Finset.mem_mk]

lemma mem_core_order (L : Layers) (ecdict : ECDictMap) (w : String) :
    w ∈ core_order L ecdict ↔ w ∈ L.core := by
  unfold core_order
  rw [mem_sort_words, mem_wordList]

lemma mem_dedupFirstAux (l : List String) :
    ∀ seen x, x ∈ dedupFirstAux seen l → x ∈ l ∧ x ∉ seen := by
  induction l with
  | nil =>
    intro seen x h
    simp [dedupFirstAux] at h
  | cons w ws ih =>
    intro seen x h
    by_cases hw : w ∈ seen
    · simp only [dedupFirstAux, if_pos hw] at h
      obtain ⟨h1, h2⟩ := ih seen x h
      exact ⟨List.mem_cons_of_mem _ h1, h2⟩
    · simp only [dedupFirstAux, if_neg hw] at h
      rcases List.mem_cons.mp h with rfl | h'
      · exact ⟨List.mem_cons_self x ws, hw⟩
      · obtain ⟨h1, h2⟩ := ih (w :: seen) x h'
        exact ⟨List.mem_cons_of_mem _ h1, fun hx => h2 (List.mem_cons_of_mem _ hx)⟩

lemma dedupFirstAux_nodup (l : List String) : ∀ seen, (dedupFirstAux seen l).Nodup := by
  induction l with
  | nil =>
    intro seen
    simp [dedupFirstAux]
  | cons w ws ih =>
    intro seen
    by_cases hw : w ∈ seen
    · simp only [dedupFirstAux, if_pos hw]
      exact ih seen
    · simp only [dedupFirstAux, if_neg hw]
      refine List.nodup_cons.mpr ⟨?_, ih (w :: seen)⟩
      intro hmem
      exact (mem_dedupFirstAux ws (w :: seen) w hmem).2 (List.mem_cons_self w seen)

lemma dedupFirst_nodup (ws : List String) : (dedupFirst ws).Nodup :=
  dedupFirstAux_nodup ws []

lemma dedupFirstAux_append (xs ys : List String) :
    ∀ seen, xs.Nodup → (∀ x ∈ xs, x ∉ seen) →
      ∃ rest, dedupFirstAux seen (xs ++ ys) = xs ++ rest := by
  induction xs with
  | nil =>
    intro seen _ _
    exact ⟨dedupFirstAux seen ys, rfl⟩
  | cons w ws ih =>
    intro seen hnd hdisj
    have hw : w ∉ seen := hdisj w (List.mem_cons_self w ws)
    have hrec := ih (w :: seen) (List.nodup_cons.mp hnd).2 (fun x hx => by
      intro hmem
      rcases List.mem_cons.mp hmem with rfl | hmem'
      · exact (List.nodup_cons.mp hnd).1 hx
      · exact hdisj x (List.mem_cons_of_mem _ hx) hmem')
    obtain ⟨rest, hrest⟩ := hrec
    refine ⟨rest, ?_⟩
    rw [List.cons_append]
    simp only [dedupFirstAux, if_neg hw]
    rw [hrest, List.cons_append]

lemma dedupFirst_take (xs ys : List String) (h : xs.Nodup) :
    (dedupFirst (xs ++ ys)).take xs.length = xs := by
  obtain ⟨rest, hrest⟩ := dedupFirstAux_append xs ys [] h (by simp)
  rw [dedupFirst, hrest, List.take_left]

/-- Claim C9: the core output order is a prefix of the full output order —
the first `len(core)` words of the full list are exactly the core list,
because the full sequence starts with the sorted core words and
first-occurrence deduplication keeps every element of a duplicate-free
prefix. -/
theorem core_prefix_of_full (kaj : KajMap) (ecdict : ECDictMap) (xt : XiaolaiTags)
    (awl : Finset String) (cmax fmax : Int) :
    ((run_pipeline kaj ecdict xt awl cmax fmax).2.map (fun e => e.word)).take
        (run_pipeline kaj ecdict xt awl cmax fmax).1.length =
      (run_pipeline kaj ecdict xt awl cmax fmax).1.map (fun e => e.word) := by
  simp only [run_pipeline]
  rw [make_entries_map_word, make_entries_map_word, make_entries_length]
  unfold full_order
  exact dedupFirst_take _ _ (sort_words_nodup _ _)

/-- Claim C6: in both output lists every word occurs exactly once (the
word multiset is duplicate-free and its set has the same cardinality as
the list), and every entry's tier label is the first tier — in priority
order core, extended, subject, supplementary — whose layer contains its
word; core-list entries all carry tier `core` and a word of the core
set. -/
theorem entries_unique_and_tier_priority (kaj : KajMap) (ecdict : ECDictMap)
    (xt : XiaolaiTags) (awl : Finset String) (cmax fmax : Int) :
    ((run_pipeline kaj ecdict xt awl cmax fmax).1.map (fun e => e.word)).Nodup ∧
      ((run_pipeline kaj ecdict xt awl cmax fmax).2.map (fun e => e.word)).Nodup ∧
      ((run_pipeline kaj ecdict xt awl cmax fmax).1.map
          (fun e => e.word)).toFinset.card =
        (run_pipeline kaj ecdict xt awl cmax fmax).1.length ∧
      ((run_pipeline kaj ecdict xt awl cmax fmax).2.map
          (fun e => e.word)).toFinset.card =
        (run_pipeline kaj ecdict xt awl cmax fmax).2.length ∧
      (∀ ent ∈ (run_pipeline kaj ecdict xt awl cmax fmax).2, ent.tier =
        if ent.word ∈ (build_layers kaj ecdict xt awl cmax fmax).core then "core"
        else if ent.word ∈ (build_layers kaj ecdict xt awl cmax fmax).layer_c then
          "extended"
        else if ent.word ∈ (build_layers kaj ecdict xt awl cmax fmax).layer_d then
          "subject"
        else if ent.word ∈ (build_layers kaj ecdict xt awl cmax fmax).layer_e then
          "supplementary"
        else "") ∧
      (∀ ent ∈ (run_pipeline kaj ecdict xt awl cmax fmax).1,
        ent.word ∈ (build_layers kaj ecdict xt awl cmax fmax).core ∧
          ent.tier = "core") := by
  have hcore_nodup : ((run_pipeline kaj ecdict xt awl cmax fmax).1.map
      (fun e => e.word)).Nodup := by
    simp only [run_pipeline]
    rw [make_entries_map_word]
    exact sort_words_nodup _ _
  have hfull_nodup : ((run_pipeline kaj ecdict xt awl cmax fmax).2.map
      (fun e => e.word)).Nodup := by
    simp only [run_pipeline]
    rw [make_entries_map_word]
    exact dedupFirst_nodup _
  refine ⟨hcore_nodup, hfull_nodup, ?_, ?_, ?_, ?_⟩
  · rw [List.toFinset_card_of_nodup hcore_nodup, List.length_map]
  · rw [List.toFinset_card_of_nodup hfull_nodup, List.length_map]
  · intro ent hent
    have h := (make_entries_tier _ _ _ _ _ _ ent hent).1
    exact h
  · intro ent hent
    obtain ⟨htier, hword⟩ := make_entries_tier _ _ _ _ _ _ ent hent
    have hcore : ent.word ∈ (build_layers kaj ecdict xt awl cmax fmax).core :=
      (mem_core_order _ ecdict ent.word).1 hword
    refine ⟨hcore, ?_⟩
    rw [htier]
    exact if_pos hcore

/-- Witness for C6: in a one-word pipeline the single core entry (word
"zeal", an academic headword) indeed has its word in the core layer. -/
theorem entries_unique_and_tier_priority_witness :
    ("zeal" : String) ∈ (build_layers [("zeal", ⟨"x", ""⟩)] [] [] {"zeal"} 5 10).core :=
  ((entries_unique_and_tier_priority [("zeal", ⟨"x", ""⟩)] [] [] {"zeal"} 5 10).2.2.2.2.2
    ⟨"toefl_0001", "zeal", "", "x", "", none, "core", ["AWL", "学术通用"], ""⟩
    (by decide)).1

end BuildToeflVocab
